import Mathlib

/-!
Verification of the binary-heap priority queue `HeapPQueue`
(file Assignment 6/code/HeapPQueue.h of the repository).

The C++ class stores `DataPoint { std::string name; int weight; }` records in a
manually managed buffer `heap` of `capacity` slots, of which the first
`currentSize` are live.  We embed the live portion of the buffer as a
`List DataPoint` (dead slots are never read by the code: every access is
guarded by an index bound of `currentSize`), and keep `capacity` as a separate
field.  The two `double` fields `growFactor = 2.0` and `shrinkThreshold = 0.25`
are embedded as exact rationals: both constants and every arithmetic result the
code computes with them (`capacity * 2.0`, `capacity / 2.0`,
`0.25 * capacity`) are exactly representable in IEEE double for every capacity
the program can reach, so rational arithmetic agrees with the C++ semantics.
`static_cast<int>` on these non-negative values is embedded as the floor.
Fallible operations (`error(...)` calls) return `Except PQError`.
-/

/- Batteries marks `Rat.mul` and `Rat.inv` irreducible; make them
semireducible so that concrete queue states evaluate by `rfl`/`decide`. -/
unseal Rat.mul Rat.inv

namespace HeapPQ

/-- The element type: `DataPoint { string name; int weight; }`. -/
structure DataPoint where
  name : String
  weight : Int
deriving DecidableEq, Repr

/-- A default-constructed `DataPoint` (empty name, weight 0), used as the
out-of-range fallback of the total indexing function below.  The code never
reads out of range, so the fallback value is irrelevant to every theorem. -/
def dpDefault : DataPoint := ⟨"", 0⟩

/-- Total indexing into the live buffer: `heap[i]` (out of range gives
`dpDefault`, which the code never does). -/
def getDP : List DataPoint → Nat → DataPoint
  | [], _ => dpDefault
  | a :: _, 0 => a
  | _ :: t, n + 1 => getDP t n

/-- `heap[i].weight`. -/
def getW (l : List DataPoint) (i : Nat) : Int := (getDP l i).weight

/-- `HeapPQueue::parent`: `(index - 1) / 2`.  For `index = 0` the C++ int
computation gives `(-1)/2 = 0` (truncation toward zero), and Nat subtraction
gives the same value `0`. -/
def parent (index : Nat) : Nat := (index - 1) / 2

/-- `HeapPQueue::leftChild`: `2 * index + 1`. -/
def leftChild (index : Nat) : Nat := 2 * index + 1

/-- `HeapPQueue::rightChild`: `2 * index + 2`. -/
def rightChild (index : Nat) : Nat := 2 * index + 2

/-- `std::swap(heap[i], heap[j])` on the live buffer. -/
def listSwap (l : List DataPoint) (i j : Nat) : List DataPoint :=
  (l.set i (getDP l j)).set j (getDP l i)

/- ### Basic facts about `getDP`, `List.set` and `listSwap` -/

theorem getDP_set_self : ∀ (l : List DataPoint) (i : Nat) (x : DataPoint),
    i < l.length → getDP (l.set i x) i = x
  | a :: t, 0, x, _ => rfl
  | a :: t, n + 1, x, h => getDP_set_self t n x (Nat.lt_of_succ_lt_succ h)

theorem getDP_set_ne : ∀ (l : List DataPoint) (i j : Nat) (x : DataPoint),
    i ≠ j → getDP (l.set i x) j = getDP l j
  | [], _, _, _, _ => rfl
  | a :: t, 0, 0, x, h => absurd rfl h
  | a :: t, 0, j + 1, x, _ => rfl
  | a :: t, i + 1, 0, x, _ => rfl
  | a :: t, i + 1, j + 1, x, h =>
      getDP_set_ne t i j x (fun hc => h (by omega))

theorem getDP_append_left : ∀ (l l2 : List DataPoint) (i : Nat),
    i < l.length → getDP (l ++ l2) i = getDP l i
  | a :: t, l2, 0, _ => rfl
  | a :: t, l2, n + 1, h => getDP_append_left t l2 n (Nat.lt_of_succ_lt_succ h)

theorem getDP_append_last : ∀ (l : List DataPoint) (x : DataPoint),
    getDP (l ++ [x]) l.length = x
  | [], x => rfl
  | a :: t, x => getDP_append_last t x

theorem getDP_take : ∀ (l : List DataPoint) (n i : Nat),
    i < n → getDP (l.take n) i = getDP l i
  | [], _, _, _ => by rw [List.take_nil]
  | a :: t, n + 1, 0, _ => rfl
  | a :: t, n + 1, i + 1, h => getDP_take t n i (Nat.lt_of_succ_lt_succ h)

theorem listSwap_length (l : List DataPoint) (i j : Nat) :
    (listSwap l i j).length = l.length := by
  simp [listSwap]

/-- Value of `listSwap l i j` at an arbitrary in-range position. -/
theorem getDP_listSwap (l : List DataPoint) (i j k : Nat)
    (hi : i < l.length) (hj : j < l.length) :
    getDP (listSwap l i j) k =
      if k = j then getDP l i else if k = i then getDP l j else getDP l k := by
  unfold listSwap
  by_cases hkj : k = j
  · subst hkj
    rw [if_pos rfl]
    exact getDP_set_self _ k _ (by simpa using hj)
  · rw [getDP_set_ne _ _ _ _ (fun h => hkj h.symm), if_neg hkj]
    by_cases hki : k = i
    · subst hki
      rw [if_pos rfl]
      exact getDP_set_self _ k _ hi
    · rw [if_neg hki]
      exact getDP_set_ne _ _ _ _ (fun h => hki h.symm)

theorem getW_listSwap (l : List DataPoint) (i j k : Nat)
    (hi : i < l.length) (hj : j < l.length) :
    getW (listSwap l i j) k =
      if k = j then getW l i else if k = i then getW l j else getW l k := by
  unfold getW
  rw [getDP_listSwap l i j k hi hj]
  by_cases hkj : k = j
  · rw [if_pos hkj, if_pos hkj]
  · rw [if_neg hkj, if_neg hkj]
    by_cases hki : k = i
    · rw [if_pos hki, if_pos hki]
    · rw [if_neg hki, if_neg hki]

theorem getDP_cons_succ (a : DataPoint) (t : List DataPoint) (n : Nat) :
    getDP (a :: t) (n + 1) = getDP t n := rfl

/-- Helper: replacing position `m` by `a` and moving the old occupant to the
front is a permutation of putting `a` in front. -/
theorem getDP_cons_set_perm : ∀ (t : List DataPoint) (m : Nat) (a : DataPoint),
    m < t.length → List.Perm (getDP t m :: t.set m a) (a :: t)
  | b :: s, 0, a, _ => by
      simpa [getDP] using List.Perm.swap a b s
  | b :: s, m + 1, a, h => by
      have ih := getDP_cons_set_perm s m a (Nat.lt_of_succ_lt_succ h)
      have h1 : getDP (b :: s) (m + 1) :: (b :: s).set (m + 1) a
          = getDP s m :: b :: s.set m a := by simp [getDP_cons_succ]
      rw [h1]
      exact ((List.Perm.swap b (getDP s m) (s.set m a)).trans
        (List.Perm.cons b ih)).trans (List.Perm.swap a b s)

/-- Swapping two in-range positions permutes the list. -/
theorem listSwap_perm : ∀ (l : List DataPoint) (i j : Nat),
    i < l.length → j < l.length → List.Perm (listSwap l i j) l := by
  intro l i j hi hj
  induction l generalizing i j with
  | nil => simp at hi
  | cons a t ih =>
    cases i with
    | zero =>
      cases j with
      | zero => simp [listSwap, getDP]
      | succ m =>
        have hm : m < t.length := Nat.lt_of_succ_lt_succ hj
        show List.Perm (((a :: t).set 0 (getDP t m)).set (m + 1) a) (a :: t)
        have : ((a :: t).set 0 (getDP t m)).set (m + 1) a
            = getDP t m :: t.set m a := by simp
        rw [this]
        exact getDP_cons_set_perm t m a hm
    | succ n =>
      cases j with
      | zero =>
        have hn : n < t.length := Nat.lt_of_succ_lt_succ hi
        show List.Perm (((a :: t).set (n + 1) (getDP (a :: t) 0)).set 0 (getDP t n)) (a :: t)
        have : ((a :: t).set (n + 1) (getDP (a :: t) 0)).set 0 (getDP t n)
            = getDP t n :: t.set n a := by simp [getDP]
        rw [this]
        exact getDP_cons_set_perm t n a hn
      | succ m =>
        have hn : n < t.length := Nat.lt_of_succ_lt_succ hi
        have hm : m < t.length := Nat.lt_of_succ_lt_succ hj
        have : listSwap (a :: t) (n + 1) (m + 1) = a :: listSwap t n m := by
          simp [listSwap, getDP_cons_succ]
        rw [this]
        exact List.Perm.cons a (ih n m hn hm)

/- ### The sift operations

`HeapPQueue::bubbleUp` is a while loop whose index strictly decreases
(`parent index < index` whenever the loop runs), so running it with `index`
units of fuel is exact: when the fuel hits 0 the index is 0 and the loop
condition is false anyway.  Similarly `HeapPQueue::bubbleDown` moves its index
to a strictly larger child below `l.length`, so `l.length` units of fuel are
exact.  Structural recursion on fuel keeps both kernel-computable. -/

/-- One round of `HeapPQueue::bubbleUp`; recursion on explicit fuel. -/
def bubbleUpFuel : Nat → List DataPoint → Nat → List DataPoint
  | 0, l, _ => l
  | fuel + 1, l, index =>
    if 0 < index ∧ getW l index < getW l (parent index) then
      bubbleUpFuel fuel (listSwap l index (parent index)) (parent index)
    else l

/-- `HeapPQueue::bubbleUp(index)`. -/
def bubbleUp (l : List DataPoint) (index : Nat) : List DataPoint :=
  bubbleUpFuel index l index

/-- The `smallest` value after the left-child comparison in
`HeapPQueue::bubbleDown` (`smallest = index` initially). -/
def smallest1 (l : List DataPoint) (index : Nat) : Nat :=
  if leftChild index < l.length ∧ getW l (leftChild index) < getW l index then
    leftChild index
  else index

/-- The `smallest` value after both child comparisons in
`HeapPQueue::bubbleDown`. -/
def smallest2 (l : List DataPoint) (index : Nat) : Nat :=
  if rightChild index < l.length ∧
      getW l (rightChild index) < getW l (smallest1 l index) then
    rightChild index
  else smallest1 l index

/-- One round of `HeapPQueue::bubbleDown`; recursion on explicit fuel. -/
def bubbleDownFuel : Nat → List DataPoint → Nat → List DataPoint
  | 0, l, _ => l
  | fuel + 1, l, index =>
    if smallest2 l index ≠ index then
      bubbleDownFuel fuel (listSwap l index (smallest2 l index)) (smallest2 l index)
    else l

/-- `HeapPQueue::bubbleDown(index)`. -/
def bubbleDown (l : List DataPoint) (index : Nat) : List DataPoint :=
  bubbleDownFuel l.length l index

/- ### The heap invariant and the two almost-heap predicates -/

/-- The min-heap property of the live buffer: every non-root live index is at
least its parent (spec: `element[parent(i)].weight ≤ element[i].weight` for
`1 ≤ i < currentSize`). -/
def heapOK (l : List DataPoint) : Prop :=
  ∀ i, i < l.length → 0 < i → getW l (parent i) ≤ getW l i

/-- Almost-heap with an upward hole at `j`: every parent-child pair except the
one above `j` holds, and the grandparent of `j` already bounds the children of
`j`.  This is the `bubbleUp` loop invariant. -/
def upOK (l : List DataPoint) (j : Nat) : Prop :=
  (∀ i, i < l.length → 0 < i → i ≠ j → getW l (parent i) ≤ getW l i) ∧
  (∀ c, c < l.length → 0 < j → parent c = j → getW l (parent j) ≤ getW l c)

/-- Almost-heap with a downward hole at `j`: every parent-child pair whose
parent is not `j` holds, and (when `j` is not the root) the parent of `j`
bounds the children of `j`.  This is the `bubbleDown` loop invariant. -/
def downOK (l : List DataPoint) (j : Nat) : Prop :=
  (∀ i, i < l.length → 0 < i → parent i ≠ j → getW l (parent i) ≤ getW l i) ∧
  (0 < j → ∀ c, c < l.length → parent c = j → getW l (parent j) ≤ getW l c)

theorem parent_lt {i : Nat} (h : 0 < i) : parent i < i := by
  unfold parent; omega

theorem parent_of_child {j c : Nat} (h : parent c = j) (h0 : 0 < c) :
    c = leftChild j ∨ c = rightChild j := by
  unfold parent at h; unfold leftChild rightChild; omega

theorem child_gt (j : Nat) : j < leftChild j ∧ j < rightChild j := by
  unfold leftChild rightChild; omega

/- ### Length and permutation facts for the sift operations -/

theorem bubbleUpFuel_length : ∀ (fuel : Nat) (l : List DataPoint) (j : Nat),
    (bubbleUpFuel fuel l j).length = l.length := by
  intro fuel
  induction fuel with
  | zero => intro l j; rfl
  | succ n ih =>
    intro l j
    simp only [bubbleUpFuel]
    split
    · rw [ih, listSwap_length]
    · rfl

theorem bubbleUpFuel_perm : ∀ (fuel : Nat) (l : List DataPoint) (j : Nat),
    j < l.length → List.Perm (bubbleUpFuel fuel l j) l := by
  intro fuel
  induction fuel with
  | zero => intro l j _; exact List.Perm.refl l
  | succ n ih =>
    intro l j hj
    simp only [bubbleUpFuel]
    split
    · rename_i h
      have hp : parent j < l.length := lt_trans (parent_lt h.1) hj
      have hswap := listSwap_perm l j (parent j) hj hp
      have hrec := ih (listSwap l j (parent j)) (parent j)
        (by rw [listSwap_length]; exact hp)
      exact (hrec.trans hswap)
    · exact List.Perm.refl l

theorem bubbleDownFuel_length : ∀ (fuel : Nat) (l : List DataPoint) (j : Nat),
    (bubbleDownFuel fuel l j).length = l.length := by
  intro fuel
  induction fuel with
  | zero => intro l j; rfl
  | succ n ih =>
    intro l j
    simp only [bubbleDownFuel]
    split
    · rw [ih, listSwap_length]
    · rfl

/-- When `bubbleDown` decides to swap, the chosen child is in range, strictly
smaller than the current element, and no larger than the sibling (if the
sibling is in range). -/
theorem smallest2_spec (l : List DataPoint) (j : Nat) (h : smallest2 l j ≠ j) :
    (smallest2 l j = leftChild j ∨ smallest2 l j = rightChild j) ∧
    smallest2 l j < l.length ∧
    getW l (smallest2 l j) < getW l j ∧
    (∀ c, (c = leftChild j ∨ c = rightChild j) → c < l.length →
      getW l (smallest2 l j) ≤ getW l c) := by
  unfold smallest2 smallest1 at h ⊢
  by_cases h1 : leftChild j < l.length ∧ getW l (leftChild j) < getW l j
  · rw [if_pos h1] at h ⊢
    by_cases h2 : rightChild j < l.length ∧
        getW l (rightChild j) < getW l (leftChild j)
    · rw [if_pos h2] at h ⊢
      refine ⟨Or.inr rfl, h2.1, lt_trans h2.2 h1.2, ?_⟩
      rintro c (rfl | rfl) hc
      · exact le_of_lt h2.2
      · exact le_rfl
    · rw [if_neg h2] at h ⊢
      refine ⟨Or.inl rfl, h1.1, h1.2, ?_⟩
      rintro c (rfl | rfl) hc
      · exact le_rfl
      · exact le_of_not_lt (fun hlt => h2 ⟨hc, hlt⟩)
  · rw [if_neg h1] at h ⊢
    by_cases h2 : rightChild j < l.length ∧ getW l (rightChild j) < getW l j
    · rw [if_pos h2] at h ⊢
      refine ⟨Or.inr rfl, h2.1, h2.2, ?_⟩
      rintro c (rfl | rfl) hc
      · exact le_of_lt (lt_of_lt_of_le h2.2
          (le_of_not_lt (fun hlt => h1 ⟨hc, hlt⟩)))
      · exact le_rfl
    · rw [if_neg h2] at h
      exact absurd rfl h

/-- When `bubbleDown` stops, both children in range are at least the current
element. -/
theorem smallest2_eq_spec (l : List DataPoint) (j : Nat) (h : smallest2 l j = j) :
    ∀ c, (c = leftChild j ∨ c = rightChild j) → c < l.length →
      getW l j ≤ getW l c := by
  unfold smallest2 smallest1 at h
  have hLj : leftChild j ≠ j := by unfold leftChild; omega
  have hRj : rightChild j ≠ j := by unfold rightChild; omega
  by_cases h1 : leftChild j < l.length ∧ getW l (leftChild j) < getW l j
  · rw [if_pos h1] at h
    by_cases h2 : rightChild j < l.length ∧
        getW l (rightChild j) < getW l (leftChild j)
    · rw [if_pos h2] at h; exact absurd h hRj
    · rw [if_neg h2] at h; exact absurd h hLj
  · rw [if_neg h1] at h
    by_cases h2 : rightChild j < l.length ∧ getW l (rightChild j) < getW l j
    · rw [if_pos h2] at h; exact absurd h hRj
    · rintro c (rfl | rfl) hc
      · exact le_of_not_lt (fun hlt => h1 ⟨hc, hlt⟩)
      · exact le_of_not_lt (fun hlt => h2 ⟨hc, hlt⟩)

theorem bubbleDownFuel_perm : ∀ (fuel : Nat) (l : List DataPoint) (j : Nat),
    List.Perm (bubbleDownFuel fuel l j) l := by
  intro fuel
  induction fuel with
  | zero => intro l j; exact List.Perm.refl l
  | succ n ih =>
    intro l j
    simp only [bubbleDownFuel]
    split
    · rename_i h
      obtain ⟨hchild, hs_len, _, _⟩ := smallest2_spec l j h
      have hj_lt : j < smallest2 l j := by
        rcases hchild with hc | hc <;> rw [hc]
        · exact (child_gt j).1
        · exact (child_gt j).2
      have hswap := listSwap_perm l j (smallest2 l j)
        (lt_trans hj_lt hs_len) hs_len
      exact ((ih _ _).trans hswap)
    · exact List.Perm.refl l

/- ### Restoration of the heap invariant -/

/-- One swap of the `bubbleUp` loop preserves the loop invariant. -/
theorem upOK_step (l : List DataPoint) (j : Nat) (hj : j < l.length)
    (hj0 : 0 < j) (hlt : getW l j < getW l (parent j)) (hup : upOK l j) :
    upOK (listSwap l j (parent j)) (parent j) := by
  have hpj : parent j < j := parent_lt hj0
  have hplen : parent j < l.length := lt_trans hpj hj
  have hw := fun k => getW_listSwap l j (parent j) k hj hplen
  have hjp_ne : j ≠ parent j := Nat.ne_of_gt hpj
  constructor
  · intro i hi hi0 hip
    rw [listSwap_length] at hi
    by_cases hij : i = j
    · subst hij
      rw [hw (parent i), if_pos rfl, hw i, if_neg hjp_ne, if_pos rfl]
      exact le_of_lt hlt
    · by_cases hpi : parent i = j
      · rw [hpi, hw j, if_neg hjp_ne, if_pos rfl, hw i, if_neg hip, if_neg hij]
        exact hup.2 i hi hj0 hpi
      · by_cases hpp : parent i = parent j
        · rw [hpp, hw (parent j), if_pos rfl, hw i, if_neg hip, if_neg hij]
          have h1 := hup.1 i hi hi0 hij
          rw [hpp] at h1
          exact le_trans (le_of_lt hlt) h1
        · rw [hw (parent i), if_neg hpp, if_neg hpi, hw i, if_neg hip, if_neg hij]
          exact hup.1 i hi hi0 hij
  · intro c hc hp0 hpc
    rw [listSwap_length] at hc
    have hgp_lt : parent (parent j) < parent j := parent_lt hp0
    have hgp_ne_p : parent (parent j) ≠ parent j := Nat.ne_of_lt hgp_lt
    have hgp_ne_j : parent (parent j) ≠ j := Nat.ne_of_lt (lt_trans hgp_lt hpj)
    rw [hw (parent (parent j)), if_neg hgp_ne_p, if_neg hgp_ne_j]
    by_cases hcj : c = j
    · rw [hcj, hw j, if_neg hjp_ne, if_pos rfl]
      exact hup.1 (parent j) hplen hp0 (Nat.ne_of_lt hpj)
    · have hc0 : 0 < c := by
        rcases Nat.eq_zero_or_pos c with rfl | h
        · rw [show parent 0 = 0 from rfl] at hpc
          omega
        · exact h
      have hcp : c ≠ parent j := by
        have := parent_lt hc0
        omega
      rw [hw c, if_neg hcp, if_neg hcj]
      have h1 := hup.1 (parent j) hplen hp0 (Nat.ne_of_lt hpj)
      have h2 := hup.1 c hc hc0 hcj
      rw [hpc] at h2
      exact le_trans h1 h2

/-- Running the `bubbleUp` loop from a hole satisfying the loop invariant
restores the heap property (the fuel `j ≤ fuel` is exact, see above). -/
theorem bubbleUpFuel_heapOK : ∀ (fuel : Nat) (l : List DataPoint) (j : Nat),
    j ≤ fuel → j < l.length → upOK l j → heapOK (bubbleUpFuel fuel l j) := by
  intro fuel
  induction fuel with
  | zero =>
    intro l j hle _ hup
    intro i hi hi0
    exact hup.1 i hi hi0 (by omega)
  | succ n ih =>
    intro l j hle hj hup
    simp only [bubbleUpFuel]
    split
    · rename_i h
      exact ih _ _ (by have := parent_lt h.1; omega)
        (by rw [listSwap_length]; exact lt_trans (parent_lt h.1) hj)
        (upOK_step l j hj h.1 h.2 hup)
    · rename_i h
      intro i hi hi0
      by_cases hij : i = j
      · subst hij
        exact le_of_not_lt (fun hc => h ⟨hi0, hc⟩)
      · exact hup.1 i hi hi0 hij

theorem getW_append_left (l l2 : List DataPoint) (i : Nat) (h : i < l.length) :
    getW (l ++ l2) i = getW l i := by
  unfold getW; rw [getDP_append_left l l2 i h]

/-- Appending a fresh element to a heap satisfies the `bubbleUp` loop
invariant with the hole at the new last position. -/
theorem upOK_append (l : List DataPoint) (x : DataPoint) (hl : heapOK l) :
    upOK (l ++ [x]) l.length := by
  constructor
  · intro i hi hi0 hij
    rw [List.length_append, List.length_singleton] at hi
    have hi' : i < l.length := by omega
    rw [getW_append_left l [x] i hi',
      getW_append_left l [x] (parent i) (lt_trans (parent_lt hi0) hi')]
    exact hl i hi' hi0
  · intro c hc h0 hpc
    exfalso
    rw [List.length_append, List.length_singleton] at hc
    unfold parent at hpc
    omega

/-- `enqueue`'s sift step: appending and bubbling up restores the heap
property. -/
theorem bubbleUp_append_heapOK (l : List DataPoint) (x : DataPoint)
    (hl : heapOK l) : heapOK (bubbleUp (l ++ [x]) l.length) := by
  unfold bubbleUp
  exact bubbleUpFuel_heapOK l.length (l ++ [x]) l.length le_rfl
    (by simp) (upOK_append l x hl)

/-- One swap of the `bubbleDown` loop preserves the loop invariant. -/
theorem downOK_step (l : List DataPoint) (j : Nat) (hdown : downOK l j)
    (h : smallest2 l j ≠ j) :
    downOK (listSwap l j (smallest2 l j)) (smallest2 l j) := by
  obtain ⟨hchild, hs_len, hs_lt, hs_min⟩ := smallest2_spec l j h
  have hjs : j < smallest2 l j := by
    rcases hchild with hc | hc <;> rw [hc]
    · exact (child_gt j).1
    · exact (child_gt j).2
  have hj_len : j < l.length := lt_trans hjs hs_len
  have hps : parent (smallest2 l j) = j := by
    rcases hchild with hc | hc <;> rw [hc] <;>
      simp only [parent, leftChild, rightChild] <;> omega
  have hw := fun k => getW_listSwap l j (smallest2 l j) k hj_len hs_len
  have hjs_ne : j ≠ smallest2 l j := Nat.ne_of_lt hjs
  constructor
  · intro i hi hi0 hpi
    rw [listSwap_length] at hi
    by_cases his : i = smallest2 l j
    · rw [his, hps, hw j, if_neg hjs_ne, if_pos rfl, hw (smallest2 l j), if_pos rfl]
      exact le_of_lt hs_lt
    · by_cases hpij : parent i = j
      · have hij : i ≠ j := by have := parent_lt hi0; omega
        rw [hpij, hw j, if_neg hjs_ne, if_pos rfl, hw i, if_neg his, if_neg hij]
        exact hs_min i (parent_of_child hpij hi0) hi
      · by_cases hij : i = j
        · have hij0 : 0 < j := hij ▸ hi0
          have h1 : parent j ≠ smallest2 l j := by
            have := parent_lt hij0
            omega
          have h2 : parent j ≠ j := Nat.ne_of_lt (parent_lt hij0)
          rw [hij, hw (parent j), if_neg h1, if_neg h2, hw j, if_neg hjs_ne,
            if_pos rfl]
          exact hdown.2 hij0 (smallest2 l j) hs_len hps
        · rw [hw (parent i), if_neg hpi, if_neg hpij, hw i, if_neg his, if_neg hij]
          exact hdown.1 i hi hi0 hpij
  · intro _ c hc hpc
    rw [listSwap_length] at hc
    have hc0 : 0 < c := by
      rcases Nat.eq_zero_or_pos c with rfl | hpos
      · exact absurd hpc (by unfold parent; omega)
      · exact hpos
    have hsc : smallest2 l j < c := by
      have := parent_lt hc0
      omega
    have hcj : c ≠ j := by omega
    have hcs : c ≠ smallest2 l j := by omega
    rw [hps, hw j, if_neg hjs_ne, if_pos rfl, hw c, if_neg hcs, if_neg hcj]
    have h1 := hdown.1 c hc hc0 (by rw [hpc]; exact Nat.ne_of_gt hjs)
    rw [hpc] at h1
    exact h1

/-- When the `bubbleDown` loop stops, the heap property holds. -/
theorem downOK_stop (l : List DataPoint) (j : Nat) (hdown : downOK l j)
    (h : smallest2 l j = j) : heapOK l := by
  intro i hi hi0
  by_cases hpi : parent i = j
  · rw [hpi]
    exact smallest2_eq_spec l j h i (parent_of_child hpi hi0) hi
  · exact hdown.1 i hi hi0 hpi

/-- Running the `bubbleDown` loop from a hole satisfying the loop invariant
restores the heap property (the fuel bound is exact, see above). -/
theorem bubbleDownFuel_heapOK : ∀ (fuel : Nat) (l : List DataPoint) (j : Nat),
    l.length ≤ fuel + j → downOK l j → heapOK (bubbleDownFuel fuel l j) := by
  intro fuel
  induction fuel with
  | zero =>
    intro l j hle hdown
    show heapOK l
    intro i hi hi0
    exact hdown.1 i hi hi0 (by have := parent_lt hi0; omega)
  | succ n ih =>
    intro l j hle hdown
    simp only [bubbleDownFuel]
    split
    · rename_i h
      obtain ⟨hchild, hs_len, _, _⟩ := smallest2_spec l j h
      have hjs : j < smallest2 l j := by
        rcases hchild with hc | hc <;> rw [hc]
        · exact (child_gt j).1
        · exact (child_gt j).2
      exact ih _ _ (by rw [listSwap_length]; omega) (downOK_step l j hdown h)
    · rename_i h
      exact downOK_stop l j hdown (of_not_not h)

/-- In a heap the root weight is a lower bound for every live element. -/
theorem heapOK_root_min (l : List DataPoint) (hl : heapOK l) :
    ∀ i, i < l.length → getW l 0 ≤ getW l i := by
  intro i
  induction i using Nat.strong_induction_on with
  | _ i ih =>
    intro hi
    rcases Nat.eq_zero_or_pos i with rfl | hi0
    · exact le_rfl
    · exact le_trans
        (ih (parent i) (parent_lt hi0) (lt_trans (parent_lt hi0) hi))
        (hl i hi hi0)

/- ### The priority queue state and its operations -/

/-- Errors reported through the course framework's `error(...)` call; the spec
names them EmptyQueueError and InvalidResizeError. -/
inductive PQError where
  | emptyQueue
  | invalidResize
deriving DecidableEq, Repr

/-- `static_cast<int>` applied to the values `capacity * growFactor` and
`capacity / growFactor`.  Every such value the program computes is
non-negative, where truncation toward zero coincides with the floor. -/
def cppIntCast (x : Rat) : Nat := (Int.floor x).toNat

/-- `static constexpr int INITIAL_CAPACITY = 100`. -/
def INITIAL_CAPACITY : Nat := 100

/-- The `HeapPQueue` state: the live buffer (indices `[0, currentSize)` of the
C++ array; `currentSize` is its length), the allocated `capacity`, and the two
resizing factors.  The dead slots of the C++ buffer are never read, so they
are not part of the state. -/
structure HeapPQueue where
  heap : List DataPoint
  capacity : Nat
  growFactor : Rat
  shrinkThreshold : Rat
deriving DecidableEq, Repr

/-- The constructor `HeapPQueue()`: empty, capacity `INITIAL_CAPACITY`,
`growFactor = 2.0`, `shrinkThreshold = 0.25`. -/
def mkNew : HeapPQueue :=
  { heap := [], capacity := INITIAL_CAPACITY, growFactor := 2,
    shrinkThreshold := 1 / 4 }

/-- `HeapPQueue::size`: returns `currentSize`. -/
def HeapPQueue.size (q : HeapPQueue) : Nat := q.heap.length

/-- `HeapPQueue::isEmpty`: `currentSize == 0`. -/
def HeapPQueue.isEmpty (q : HeapPQueue) : Bool := q.size == 0

/-- `HeapPQueue::peek`: reports EmptyQueueError on an empty queue (before any
buffer access), else returns `heap[0]` without mutating anything (the C++
method is `const`). -/
def HeapPQueue.peek (q : HeapPQueue) : Except PQError DataPoint :=
  if q.isEmpty then .error .emptyQueue else .ok (getDP q.heap 0)

/-- `HeapPQueue::resize`: reports InvalidResizeError when
`newCapacity < currentSize`, else copies the first `currentSize` elements into
a fresh buffer of `newCapacity` slots (the live list is unchanged) and adopts
the new capacity. -/
def HeapPQueue.resize (q : HeapPQueue) (newCapacity : Nat) :
    Except PQError HeapPQueue :=
  if newCapacity < q.size then .error .invalidResize
  else .ok { q with capacity := newCapacity }

/-- `HeapPQueue::enqueue`: grow by `capacity * growFactor` when full, place
the new element at index `currentSize`, then bubble it up. -/
def HeapPQueue.enqueue (q : HeapPQueue) (data : DataPoint) :
    Except PQError HeapPQueue :=
  (if q.size = q.capacity then
      q.resize (cppIntCast ((q.capacity : Rat) * q.growFactor))
    else .ok q).map
    (fun q1 => { q1 with heap := bubbleUp (q1.heap ++ [data]) q1.heap.length })

/-- The state of `dequeue` after `heap[0] = heap[currentSize - 1]`,
`currentSize--` and `bubbleDown(0)`, before the shrink check. -/
def HeapPQueue.popped (q : HeapPQueue) : HeapPQueue :=
  { q with
    heap := bubbleDown
      ((q.heap.set 0 (getDP q.heap (q.size - 1))).take (q.size - 1)) 0 }

/-- `HeapPQueue::dequeue`: reports EmptyQueueError on an empty queue (before
any buffer access), else saves the root, moves the last live element to the
root, sifts down, shrinks to
`max(INITIAL_CAPACITY, capacity / growFactor)` when
`size() < shrinkThreshold * capacity`, and returns the saved root. -/
def HeapPQueue.dequeue (q : HeapPQueue) :
    Except PQError (DataPoint × HeapPQueue) :=
  if q.isEmpty then .error .emptyQueue
  else
    (if (q.popped.size : Rat) < q.shrinkThreshold * (q.capacity : Rat) then
        q.popped.resize
          (max INITIAL_CAPACITY (cppIntCast ((q.capacity : Rat) / q.growFactor)))
      else .ok q.popped).map
      (fun q2 => (getDP q.heap 0, q2))

/- ### Exact-rational counterparts of the double arithmetic -/

theorem cppIntCast_two_mul (c : Nat) : cppIntCast ((c : Rat) * 2) = 2 * c := by
  unfold cppIntCast
  have h : (c : Rat) * 2 = ((2 * c : Nat) : Rat) := by push_cast; ring
  rw [h, Int.floor_natCast]
  exact Int.toNat_natCast _

theorem cppIntCast_half (c : Nat) : cppIntCast ((c : Rat) / 2) = c / 2 := by
  unfold cppIntCast
  have h : (⌊((c : Rat) / 2)⌋ : Int) = ((c / 2 : Nat) : Int) := by
    rw [Int.floor_eq_iff]
    constructor
    · rw [le_div_iff₀ (by norm_num : (0 : Rat) < 2)]
      exact_mod_cast Nat.div_mul_le_self c 2
    · rw [div_lt_iff₀ (by norm_num : (0 : Rat) < 2)]
      exact_mod_cast (by omega : c < (c / 2 + 1) * 2)
  rw [h]
  exact Int.toNat_natCast _

theorem rat_quarter_lt (a b : Nat) :
    ((a : Rat) < 1 / 4 * (b : Rat)) ↔ 4 * a < b := by
  rw [show (1 / 4 : Rat) * (b : Rat) = (b : Rat) / 4 by ring,
    lt_div_iff₀ (by norm_num : (0 : Rat) < 4)]
  have h : ((a : Rat) * 4 = ((4 * a : Nat) : Rat)) := by push_cast; ring
  rw [h, Nat.cast_lt]

/- ### Derived facts about the operations -/

theorem getW_take (l : List DataPoint) (n i : Nat) (h : i < n) :
    getW (l.take n) i = getW l i := by
  unfold getW; rw [getDP_take l n i h]

theorem getW_set_ne (l : List DataPoint) (i j : Nat) (x : DataPoint)
    (h : i ≠ j) : getW (l.set i x) j = getW l j := by
  unfold getW; rw [getDP_set_ne l i j x h]

theorem isEmpty_iff (q : HeapPQueue) : q.isEmpty = true ↔ q.size = 0 := by
  unfold HeapPQueue.isEmpty
  simp

theorem bubbleUp_append_length (l : List DataPoint) (x : DataPoint) :
    (bubbleUp (l ++ [x]) l.length).length = l.length + 1 := by
  unfold bubbleUp
  rw [bubbleUpFuel_length, List.length_append, List.length_singleton]

theorem bubbleUp_append_perm (l : List DataPoint) (x : DataPoint) :
    List.Perm (bubbleUp (l ++ [x]) l.length) (x :: l) := by
  unfold bubbleUp
  exact (bubbleUpFuel_perm l.length (l ++ [x]) l.length (by simp)).trans
    (List.perm_append_singleton x l)

/-- The replace-root-by-last pattern of `dequeue` satisfies the `bubbleDown`
loop invariant with the hole at the root. -/
theorem downOK_pop (l : List DataPoint) (hl : heapOK l) :
    downOK ((l.set 0 (getDP l (l.length - 1))).take (l.length - 1)) 0 := by
  constructor
  · intro i hi hi0 hpi
    rw [List.length_take, List.length_set] at hi
    have hi' : i < l.length - 1 := by omega
    have hpi' : parent i < i := parent_lt hi0
    rw [getW_take _ _ _ hi', getW_take _ _ _ (by omega),
      getW_set_ne _ _ _ _ (fun hc => hpi hc.symm),
      getW_set_ne _ _ _ _ (by omega)]
    exact hl i (by omega) hi0
  · intro h0
    exact absurd h0 (lt_irrefl 0)

/-- Moving the last element of a nonempty list to the front of its own
one-shorter front segment is a permutation of the list. -/
theorem last_take_perm : ∀ (t : List DataPoint), 0 < t.length →
    List.Perm (getDP t (t.length - 1) :: t.take (t.length - 1)) t := by
  intro t
  induction t with
  | nil => intro h; simp at h
  | cons a t ih =>
    intro _
    cases t with
    | nil => exact List.Perm.refl _
    | cons b s =>
      show List.Perm (getDP (b :: s) s.length :: a :: (b :: s).take s.length)
        (a :: b :: s)
      exact (List.Perm.swap a _ _).trans (List.Perm.cons a (ih (by simp)))

/-- `dequeue`'s root replacement: the original live list is a permutation of
the saved root consed onto the truncated, root-replaced list. -/
theorem pop_perm (l : List DataPoint) (hpos : 0 < l.length) :
    List.Perm l
      (getDP l 0 :: (l.set 0 (getDP l (l.length - 1))).take (l.length - 1)) := by
  cases l with
  | nil => simp at hpos
  | cons a t =>
    cases t with
    | nil => exact List.Perm.refl _
    | cons b s =>
      show List.Perm (a :: b :: s)
        (a :: getDP (b :: s) s.length :: (b :: s).take s.length)
      exact List.Perm.cons a (last_take_perm (b :: s) (by simp)).symm

theorem popped_size (q : HeapPQueue) : q.popped.size = q.size - 1 := by
  show (bubbleDown
    ((q.heap.set 0 (getDP q.heap (q.size - 1))).take (q.size - 1)) 0).length
    = q.size - 1
  unfold bubbleDown
  rw [bubbleDownFuel_length, List.length_take, List.length_set]
  unfold HeapPQueue.size
  omega

theorem popped_heapOK (q : HeapPQueue) (h : heapOK q.heap) :
    heapOK q.popped.heap := by
  show heapOK (bubbleDown
    ((q.heap.set 0 (getDP q.heap (q.size - 1))).take (q.size - 1)) 0)
  unfold bubbleDown
  exact bubbleDownFuel_heapOK _ _ 0 (by omega) (downOK_pop q.heap h)

theorem popped_perm (q : HeapPQueue) (hpos : 0 < q.size) :
    List.Perm q.heap (getDP q.heap 0 :: q.popped.heap) := by
  show List.Perm q.heap (getDP q.heap 0 :: bubbleDown
    ((q.heap.set 0 (getDP q.heap (q.size - 1))).take (q.size - 1)) 0)
  exact (pop_perm q.heap hpos).trans
    (List.Perm.cons _ (bubbleDownFuel_perm _ _ _).symm)

/-- The well-formedness invariant maintained by every reachable state. -/
structure Inv (q : HeapPQueue) : Prop where
  grow : q.growFactor = 2
  shrink : q.shrinkThreshold = 1 / 4
  size_le : q.size ≤ q.capacity
  cap_ge : INITIAL_CAPACITY ≤ q.capacity
  heap_ok : heapOK q.heap

theorem Inv_mkNew : Inv mkNew := by
  refine ⟨rfl, rfl, Nat.zero_le _, le_rfl, ?_⟩
  intro i hi _
  exact absurd hi (Nat.not_lt_zero i)

/-- `enqueue` on a well-formed state always succeeds, adds exactly the new
element, and preserves the invariant. -/
theorem enqueue_ok (q : HeapPQueue) (x : DataPoint) (h : Inv q) :
    ∃ q' : HeapPQueue, q.enqueue x = .ok q' ∧ Inv q' ∧
      List.Perm q'.heap (x :: q.heap) ∧ q'.size = q.size + 1 ∧
      q'.growFactor = q.growFactor ∧ q'.shrinkThreshold = q.shrinkThreshold ∧
      q.capacity ≤ q'.capacity := by
  have hsz : q.size = q.heap.length := rfl
  have hcap100 : 100 ≤ q.capacity := h.cap_ge
  unfold HeapPQueue.enqueue
  by_cases hfull : q.size = q.capacity
  · rw [if_pos hfull]
    unfold HeapPQueue.resize
    rw [h.grow, cppIntCast_two_mul, if_neg (by omega : ¬ 2 * q.capacity < q.size)]
    refine ⟨_, rfl, ⟨rfl, h.shrink, ?_, ?_, ?_⟩, ?_, ?_, rfl, rfl, ?_⟩
    · show (bubbleUp (q.heap ++ [x]) q.heap.length).length ≤ 2 * q.capacity
      rw [bubbleUp_append_length]
      omega
    · show INITIAL_CAPACITY ≤ 2 * q.capacity
      have : INITIAL_CAPACITY = 100 := rfl
      omega
    · exact bubbleUp_append_heapOK q.heap x h.heap_ok
    · exact bubbleUp_append_perm q.heap x
    · show (bubbleUp (q.heap ++ [x]) q.heap.length).length = q.size + 1
      rw [bubbleUp_append_length]
      rfl
    · show q.capacity ≤ 2 * q.capacity
      omega
  · rw [if_neg hfull]
    have hlt : q.size < q.capacity := lt_of_le_of_ne h.size_le hfull
    refine ⟨_, rfl, ⟨h.grow, h.shrink, ?_, h.cap_ge, ?_⟩, ?_, ?_, rfl, rfl, le_rfl⟩
    · show (bubbleUp (q.heap ++ [x]) q.heap.length).length ≤ q.capacity
      rw [bubbleUp_append_length]
      omega
    · exact bubbleUp_append_heapOK q.heap x h.heap_ok
    · exact bubbleUp_append_perm q.heap x
    · show (bubbleUp (q.heap ++ [x]) q.heap.length).length = q.size + 1
      rw [bubbleUp_append_length]
      rfl

theorem dequeue_empty (q : HeapPQueue) (h : q.size = 0) :
    q.dequeue = .error .emptyQueue := by
  unfold HeapPQueue.dequeue
  rw [if_pos ((isEmpty_iff q).mpr h)]

theorem peek_empty (q : HeapPQueue) (h : q.size = 0) :
    q.peek = .error .emptyQueue := by
  unfold HeapPQueue.peek
  rw [if_pos ((isEmpty_iff q).mpr h)]

theorem peek_pos (q : HeapPQueue) (hpos : 0 < q.size) :
    q.peek = .ok (getDP q.heap 0) := by
  unfold HeapPQueue.peek
  rw [if_neg (fun hc => by rw [isEmpty_iff] at hc; omega)]

/-- `dequeue` on a nonempty well-formed state always succeeds, removes
exactly the root, and preserves the invariant. -/
theorem dequeue_ok (q : HeapPQueue) (h : Inv q) (hpos : 0 < q.size) :
    ∃ q' : HeapPQueue, q.dequeue = .ok (getDP q.heap 0, q') ∧ Inv q' ∧
      List.Perm q.heap (getDP q.heap 0 :: q'.heap) ∧ q'.size = q.size - 1 ∧
      q'.growFactor = q.growFactor ∧ q'.shrinkThreshold = q.shrinkThreshold := by
  have hcap100 : 100 ≤ q.capacity := h.cap_ge
  have hps := popped_size q
  unfold HeapPQueue.dequeue
  rw [if_neg (fun hc => by rw [isEmpty_iff] at hc; omega)]
  rw [h.shrink, h.grow, cppIntCast_half]
  by_cases hsh : 4 * q.popped.size < q.capacity
  · rw [if_pos ((rat_quarter_lt _ _).mpr hsh)]
    unfold HeapPQueue.resize
    have hIC : INITIAL_CAPACITY = 100 := rfl
    rw [if_neg (by rw [hps] at hsh ⊢; omega :
      ¬ max INITIAL_CAPACITY (q.capacity / 2) < q.popped.size)]
    refine ⟨_, rfl, ⟨h.grow, h.shrink, ?_, ?_, ?_⟩, ?_, ?_, h.grow, h.shrink⟩
    · show q.popped.size ≤ max INITIAL_CAPACITY (q.capacity / 2)
      rw [hps] at hsh ⊢
      omega
    · exact le_max_left _ _
    · exact popped_heapOK q h.heap_ok
    · exact popped_perm q hpos
    · exact hps
  · rw [if_neg (fun hc => hsh ((rat_quarter_lt _ _).mp hc))]
    refine ⟨_, rfl, ⟨h.grow, h.shrink, ?_, h.cap_ge, popped_heapOK q h.heap_ok⟩,
      popped_perm q hpos, hps, h.grow, h.shrink⟩
    show q.popped.size ≤ q.capacity
    have := h.size_le
    omega

/- ### Reachability through the public interface -/

/-- States reachable from a freshly constructed queue by any sequence of
completed `enqueue`/`dequeue` calls. -/
inductive Reachable : HeapPQueue → Prop where
  | init : Reachable mkNew
  | enq {q : HeapPQueue} {x : DataPoint} {q' : HeapPQueue} :
      Reachable q → q.enqueue x = .ok q' → Reachable q'
  | deq {q : HeapPQueue} {d : DataPoint} {q' : HeapPQueue} :
      Reachable q → q.dequeue = .ok (d, q') → Reachable q'

theorem reachable_inv {q0 : HeapPQueue} (h : Reachable q0) : Inv q0 := by
  induction h with
  | init => exact Inv_mkNew
  | enq hr heq ih =>
    rename_i q x q'
    obtain ⟨q'', heq', hinv, -, -, -, -, -⟩ := enqueue_ok q x ih
    rw [heq'] at heq
    exact (Except.ok.inj heq) ▸ hinv
  | deq hr heq ih =>
    rename_i q d q'
    rcases Nat.eq_zero_or_pos q.size with h0 | hp
    · rw [dequeue_empty q h0] at heq
      exact Except.noConfusion heq
    · obtain ⟨q'', heq', hinv, -, -, -, -⟩ := dequeue_ok q ih hp
      rw [heq'] at heq
      have h2 : q'' = q' := congrArg Prod.snd (Except.ok.inj heq)
      exact h2 ▸ hinv

/- ### Sequences of public calls -/

/-- One enqueue call; an erroring call (never from a well-formed state)
leaves the state unchanged. -/
def enqStep (q : HeapPQueue) (x : DataPoint) : HeapPQueue :=
  match q.enqueue x with
  | .ok q' => q'
  | .error _ => q

/-- Enqueue a list of elements in order. -/
def enqueueAll (q : HeapPQueue) (xs : List DataPoint) : HeapPQueue :=
  xs.foldl enqStep q

/-- One dequeue call, discarding the result; an erroring call (dequeue on
empty aborts via `error(...)`) leaves the state unchanged. -/
def deqStep (q : HeapPQueue) : HeapPQueue :=
  match q.dequeue with
  | .ok (_, q') => q'
  | .error _ => q

/-- Repeatedly dequeue, collecting results, stopping on error (empty queue)
or when the fuel runs out; `q.size` units of fuel drain the queue fully. -/
def drainFuel : Nat → HeapPQueue → List DataPoint
  | 0, _ => []
  | fuel + 1, q =>
    match q.dequeue with
    | .ok (d, q') => d :: drainFuel fuel q'
    | .error _ => []

/-- Dequeue until empty, collecting the results in order. -/
def drain (q : HeapPQueue) : List DataPoint := drainFuel q.size q

/-- Perform `n` dequeue calls, discarding the results. -/
def dequeueN : Nat → HeapPQueue → HeapPQueue
  | 0, q => q
  | n + 1, q => dequeueN n (deqStep q)

/-- A public mutating call. -/
inductive Op where
  | enq (d : DataPoint)
  | deq

/-- Run a sequence of calls, returning the final state, the number of
`enqueue` calls and the number of completed (non-erroring) `dequeue` calls. -/
def runCount : HeapPQueue → List Op → HeapPQueue × Nat × Nat
  | q, [] => (q, 0, 0)
  | q, Op.enq d :: rest =>
      let r := runCount (enqStep q d) rest
      (r.1, r.2.1 + 1, r.2.2)
  | q, Op.deq :: rest =>
      match q.dequeue with
      | .ok (_, q') =>
          let r := runCount q' rest
          (r.1, r.2.1, r.2.2 + 1)
      | .error _ => runCount q rest

/-- Number of grow reallocations while enqueuing `xs` in order: `enqueue`
calls `resize(capacity * growFactor)` exactly when `size() == capacity` on
entry. -/
def growCount : HeapPQueue → List DataPoint → Nat
  | _, [] => 0
  | q, x :: xs =>
      (if q.size = q.capacity then 1 else 0) + growCount (enqStep q x) xs

/-- Number of capacity-reducing (shrink) reallocations over the next `n`
dequeue calls. -/
def shrinkCount : Nat → HeapPQueue → Nat
  | 0, _ => 0
  | n + 1, q =>
      (if (deqStep q).capacity < q.capacity then 1 else 0) +
        shrinkCount n (deqStep q)

/- ### Draining a well-formed queue sorts it -/

theorem mem_getDP : ∀ (l : List DataPoint) (e : DataPoint), e ∈ l →
    ∃ i, i < l.length ∧ getDP l i = e := by
  intro l
  induction l with
  | nil => intro e h; simp at h
  | cons a t ih =>
    intro e h
    rcases List.mem_cons.mp h with rfl | ht
    · exact ⟨0, by simp, rfl⟩
    · obtain ⟨i, hi, hgi⟩ := ih e ht
      exact ⟨i + 1, by simpa using Nat.succ_lt_succ hi, hgi⟩

/-- In a heap, the root is a lower bound of every member. -/
theorem root_min_mem (l : List DataPoint) (hl : heapOK l) (e : DataPoint)
    (he : e ∈ l) : (getDP l 0).weight ≤ e.weight := by
  obtain ⟨i, hi, rfl⟩ := mem_getDP l e he
  exact heapOK_root_min l hl i hi

theorem drainFuel_spec : ∀ (fuel : Nat) (q : HeapPQueue), Inv q →
    q.size ≤ fuel →
    List.Perm (drainFuel fuel q) q.heap ∧
    List.Sorted (· ≤ ·) ((drainFuel fuel q).map DataPoint.weight) ∧
    (drainFuel fuel q).length = q.size := by
  intro fuel
  induction fuel with
  | zero =>
    intro q hinv hle
    have h0 : q.heap = [] := List.length_eq_zero.mp (Nat.le_zero.mp hle)
    refine ⟨by rw [h0]; exact List.Perm.refl _, by simp [drainFuel], ?_⟩
    show (0 : Nat) = q.size
    omega
  | succ n ih =>
    intro q hinv hle
    rcases Nat.eq_zero_or_pos q.size with h0 | hp
    · have hnil : q.heap = [] := List.length_eq_zero.mp h0
      simp only [drainFuel, dequeue_empty q h0]
      refine ⟨?_, ?_, ?_⟩
      · rw [hnil]
      · simp
      · simp [h0]
    · obtain ⟨q', heq, hinv', hperm, hsz, -, -⟩ := dequeue_ok q hinv hp
      simp only [drainFuel, heq]
      obtain ⟨ihp, ihs, ihl⟩ := ih q' hinv' (by omega)
      refine ⟨?_, ?_, ?_⟩
      · exact (List.Perm.cons _ ihp).trans hperm.symm
      · rw [List.map_cons, List.sorted_cons]
        refine ⟨?_, ihs⟩
        intro b hb
        obtain ⟨e, he, rfl⟩ := List.mem_map.mp hb
        have he' : e ∈ q'.heap := ihp.subset he
        have he'' : e ∈ q.heap := hperm.symm.subset (List.mem_cons_of_mem _ he')
        exact root_min_mem q.heap hinv.heap_ok e he''
      · rw [List.length_cons, ihl]
        omega

theorem drain_spec (q : HeapPQueue) (h : Inv q) :
    List.Perm (drain q) q.heap ∧
    List.Sorted (· ≤ ·) ((drain q).map DataPoint.weight) ∧
    (drain q).length = q.size :=
  drainFuel_spec q.size q h le_rfl

theorem enqStep_of_ok {q : HeapPQueue} {x : DataPoint} {q' : HeapPQueue}
    (heq : q.enqueue x = .ok q') : enqStep q x = q' := by
  unfold enqStep; rw [heq]

theorem enqueueAll_spec : ∀ (xs : List DataPoint) (q : HeapPQueue), Inv q →
    Inv (enqueueAll q xs) ∧
    List.Perm (enqueueAll q xs).heap (xs ++ q.heap) := by
  intro xs
  induction xs with
  | nil =>
    intro q h
    exact ⟨h, List.Perm.refl _⟩
  | cons x xs ih =>
    intro q h
    obtain ⟨q1, heq, hinv1, hperm1, -, -, -, -⟩ := enqueue_ok q x h
    have hstep : enqueueAll q (x :: xs) = enqueueAll q1 xs := by
      show enqueueAll (enqStep q x) xs = enqueueAll q1 xs
      rw [enqStep_of_ok heq]
    rw [hstep]
    obtain ⟨hinv2, hperm2⟩ := ih q1 hinv1
    refine ⟨hinv2, ?_⟩
    exact hperm2.trans ((List.Perm.append_left xs hperm1).trans
      List.perm_middle)

/- ### Concrete states used by the witnesses -/

/-- The state after `enqueue({"b", 2})` on a fresh queue. -/
def wq1 : HeapPQueue :=
  { heap := [⟨"b", 2⟩], capacity := 100, growFactor := 2,
    shrinkThreshold := 1 / 4 }

/-- The state after `enqueue({"b", 2}); enqueue({"a", 1})` on a fresh queue
(the second element bubbles up to the root). -/
def wq2 : HeapPQueue :=
  { heap := [⟨"a", 1⟩, ⟨"b", 2⟩], capacity := 100, growFactor := 2,
    shrinkThreshold := 1 / 4 }

theorem wq1_reachable : Reachable wq1 :=
  Reachable.enq Reachable.init
    (show mkNew.enqueue ⟨"b", 2⟩ = Except.ok wq1 from rfl)

theorem wq2_reachable : Reachable wq2 :=
  Reachable.enq wq1_reachable
    (show wq1.enqueue ⟨"a", 1⟩ = Except.ok wq2 from rfl)

/- ### Inputs and intermediate states of the resize stress scenario -/

/-- 120 elements with weights `0..119` (names `e0..e119`). -/
def pts120 : List DataPoint :=
  (List.range 120).map (fun i => ⟨"e" ++ toString i, (i : Int)⟩)

/-- 30 more elements with weights `120..149`. -/
def pts30 : List DataPoint :=
  (List.range 30).map (fun i => ⟨"e" ++ toString (120 + i), ((120 + i : Nat) : Int)⟩)

/-- The elements with weights `100..149` in ascending order. -/
def expected50 : List DataPoint :=
  (List.range 50).map (fun i => ⟨"e" ++ toString (100 + i), ((100 + i : Nat) : Int)⟩)

/-- The state after enqueuing `pts120`: one grow reallocation took the
capacity from 100 to 200, and ascending weights never bubble up. -/
def q120 : HeapPQueue :=
  { heap := pts120, capacity := 200, growFactor := 2, shrinkThreshold := 1 / 4 }

/-- Heap order of the 20 elements remaining after 100 dequeues from `q120`. -/
def mid20w : List Nat :=
  [100, 102, 101, 105, 109, 103, 107, 106, 110, 112,
   113, 104, 118, 116, 108, 115, 111, 114, 119, 117]

/-- The state after 100 dequeues from `q120`: the shrink step has returned
the capacity to 100. -/
def q20 : HeapPQueue :=
  { heap := mid20w.map (fun w => ⟨"e" ++ toString w, (w : Int)⟩),
    capacity := 100, growFactor := 2, shrinkThreshold := 1 / 4 }

/-- The state after enqueuing `pts30` into `q20` (ascending weights append
without swaps). -/
def q50 : HeapPQueue :=
  { heap := (mid20w ++ (List.range 30).map (fun i => 120 + i)).map
      (fun w => ⟨"e" ++ toString w, (w : Int)⟩),
    capacity := 100, growFactor := 2, shrinkThreshold := 1 / 4 }

set_option maxRecDepth 40000 in
theorem enqueueAll_pts120_eq : enqueueAll mkNew pts120 = q120 := by decide

set_option maxRecDepth 40000 in
theorem dequeueN_q120_eq : dequeueN 100 q120 = q20 := by decide

set_option maxRecDepth 40000 in
theorem enqueueAll_q20_eq : enqueueAll q20 pts30 = q50 := by decide

set_option maxRecDepth 40000 in
theorem drain_q50_eq : drain q50 = expected50 := by decide

set_option maxRecDepth 40000 in
theorem shrinkCount_q120_ge : 1 ≤ shrinkCount 100 q120 := by decide

/- ### The claims -/

/-- C1: for every sequence of elements enqueued into a freshly constructed
`HeapPQueue` (any order of weights, duplicates included), draining by
repeated `dequeue` yields the elements' weights in non-decreasing order, the
number of dequeues before empty equals the number of enqueues, and the
multiset of returned elements is exactly the multiset enqueued (so two
elements of equal weight are both returned, never deduplicated). -/
theorem C1_sorted_extraction (xs : List DataPoint) :
    List.Perm (drain (enqueueAll mkNew xs)) xs ∧
    List.Sorted (· ≤ ·) ((drain (enqueueAll mkNew xs)).map DataPoint.weight) ∧
    (drain (enqueueAll mkNew xs)).length = xs.length := by
  obtain ⟨hinv, hperm⟩ := enqueueAll_spec xs mkNew Inv_mkNew
  have hperm' : List.Perm (enqueueAll mkNew xs).heap xs := by
    rw [show mkNew.heap = [] from rfl, List.append_nil] at hperm
    exact hperm
  obtain ⟨hp, hs, hl⟩ := drain_spec _ hinv
  refine ⟨hp.trans hperm', hs, ?_⟩
  rw [hl]
  exact hperm'.length_eq

/-- C2: after every completed sequence of `enqueue`/`dequeue` calls (i.e. in
every reachable state), the min-heap property holds over the live buffer:
`heap[(i - 1) / 2].weight ≤ heap[i].weight` for every `1 ≤ i < currentSize`. -/
theorem C2_heap_invariant {q : HeapPQueue} (h : Reachable q) :
    ∀ i, 1 ≤ i → i < q.size →
      (getDP q.heap ((i - 1) / 2)).weight ≤ (getDP q.heap i).weight :=
  fun i h1 hi => (reachable_inv h).heap_ok i hi h1

/-- Witness for C2 at the reachable two-element state `wq2` and index 1. -/
theorem C2_heap_invariant_witness :
    (getDP wq2.heap ((1 - 1) / 2)).weight ≤ (getDP wq2.heap 1).weight :=
  C2_heap_invariant wq2_reachable 1 (by decide) (by decide)

/-- C3: `dequeue()` and `peek()` on an empty queue (freshly constructed or
drained) report EmptyQueueError.  Both check emptiness before touching the
buffer (in the embedding they return the error without producing any
successor state, so the caller's state, with `size() = 0`, is unchanged). -/
theorem C3_empty_errors (q : HeapPQueue) (h : q.size = 0) :
    q.dequeue = .error PQError.emptyQueue ∧
    q.peek = .error PQError.emptyQueue ∧ q.size = 0 :=
  ⟨dequeue_empty q h, peek_empty q h, h⟩

/-- Witness for C3 at the freshly constructed queue. -/
theorem C3_empty_errors_witness :
    mkNew.dequeue = .error PQError.emptyQueue ∧
    mkNew.peek = .error PQError.emptyQueue ∧ mkNew.size = 0 :=
  C3_empty_errors mkNew rfl

set_option maxRecDepth 40000 in
/-- C4 counterexample: enqueuing the 120 elements with weights `0..119` into
a fresh queue performs exactly one grow reallocation (capacity 100 to 200),
so it does **not** force at least two grow reallocations as claimed. -/
theorem C4_counterexample : ¬ 2 ≤ growCount mkNew pts120 := by decide

set_option maxRecDepth 40000 in
/-- C4 (amended): the same scenario with the grow count corrected to exactly
one: enqueuing weights `0..119` forces exactly one grow reallocation;
dequeuing 100 elements forces at least one shrink reallocation; enqueuing 30
more elements with weights `120..149` and draining fully yields exactly the
elements with weights `100..149` in ascending order, none lost or
corrupted. -/
theorem C4_resize_scenario :
    growCount mkNew pts120 = 1 ∧
    1 ≤ shrinkCount 100 (enqueueAll mkNew pts120) ∧
    drain (enqueueAll (dequeueN 100 (enqueueAll mkNew pts120)) pts30)
      = expected50 := by
  refine ⟨by decide, ?_, ?_⟩
  · rw [enqueueAll_pts120_eq]
    exact shrinkCount_q120_ge
  · rw [enqueueAll_pts120_eq, dequeueN_q120_eq, enqueueAll_q20_eq]
    exact drain_q50_eq

/-- C5: `resize(n)` reports InvalidResizeError exactly when
`n < currentSize`; in every reachable state the grow argument
`capacity * growFactor` is at least `currentSize`, the shrink argument
`max(INITIAL_CAPACITY, capacity / growFactor)` is at least the decremented
size whenever the shrink trigger `size() < shrinkThreshold * capacity`
(equivalently `4 * (size - 1) < capacity`) holds, hence `enqueue` always
succeeds and `dequeue` can only report EmptyQueueError, never
InvalidResizeError. -/
theorem C5_resize_guard (q : HeapPQueue) (n : Nat) (x : DataPoint)
    (hq : Reachable q) :
    (q.resize n = .error PQError.invalidResize ↔ n < q.size) ∧
    (q.size = q.capacity →
      q.size ≤ cppIntCast ((q.capacity : Rat) * q.growFactor)) ∧
    (4 * (q.size - 1) < q.capacity →
      q.size - 1 ≤
        max INITIAL_CAPACITY (cppIntCast ((q.capacity : Rat) / q.growFactor))) ∧
    (∃ q', q.enqueue x = .ok q') ∧
    (∀ e, q.dequeue = .error e → e = PQError.emptyQueue) := by
  have hinv := reachable_inv hq
  refine ⟨?_, ?_, ?_, ?_, ?_⟩
  · unfold HeapPQueue.resize
    constructor
    · intro h
      by_contra hc
      rw [if_neg hc] at h
      exact Except.noConfusion h
    · intro h
      rw [if_pos h]
  · intro hfull
    rw [hinv.grow, cppIntCast_two_mul]
    omega
  · intro hsh
    rw [hinv.grow, cppIntCast_half]
    have hc := hinv.cap_ge
    have hIC : INITIAL_CAPACITY = 100 := rfl
    omega
  · obtain ⟨q', heq, -, -, -, -, -, -⟩ := enqueue_ok q x hinv
    exact ⟨q', heq⟩
  · intro e he
    rcases Nat.eq_zero_or_pos q.size with h0 | hp
    · rw [dequeue_empty q h0] at he
      exact (Except.error.inj he).symm
    · obtain ⟨q', heq, -, -, -, -, -⟩ := dequeue_ok q hinv hp
      rw [heq] at he
      exact Except.noConfusion he

/-- Witness for C5 at the freshly constructed queue, `n = 0`, element
`{"a", 1}`. -/
theorem C5_resize_guard_witness :
    (mkNew.resize 0 = .error PQError.invalidResize ↔ 0 < mkNew.size) ∧
    (mkNew.size = mkNew.capacity →
      mkNew.size ≤ cppIntCast ((mkNew.capacity : Rat) * mkNew.growFactor)) ∧
    (4 * (mkNew.size - 1) < mkNew.capacity →
      mkNew.size - 1 ≤
        max INITIAL_CAPACITY
          (cppIntCast ((mkNew.capacity : Rat) / mkNew.growFactor))) ∧
    (∃ q', mkNew.enqueue ⟨"a", 1⟩ = .ok q') ∧
    (∀ e, mkNew.dequeue = .error e → e = PQError.emptyQueue) :=
  C5_resize_guard mkNew 0 ⟨"a", 1⟩ Reachable.init

theorem getDP_zero_mem (l : List DataPoint) (h : 0 < l.length) :
    getDP l 0 ∈ l := by
  cases l with
  | nil => simp at h
  | cons a t => exact List.mem_cons_self a t

/-- C6: on every reachable state with `currentSize > 0`, `peek()` returns the
stored root element, which is a live element whose weight is at most the
weight of every live element; `peek` is a `const` observation: in the
embedding it returns no successor state, so `currentSize`, the capacity and
all stored elements are unchanged. -/
theorem C6_peek_min (q : HeapPQueue) (hq : Reachable q) (hpos : 0 < q.size) :
    q.peek = .ok (getDP q.heap 0) ∧ getDP q.heap 0 ∈ q.heap ∧
    ∀ e ∈ q.heap, (getDP q.heap 0).weight ≤ e.weight := by
  have hinv := reachable_inv hq
  exact ⟨peek_pos q hpos, getDP_zero_mem q.heap hpos,
    fun e he => root_min_mem q.heap hinv.heap_ok e he⟩

/-- Witness for C6 at the reachable two-element state `wq2`. -/
theorem C6_peek_min_witness :
    wq2.peek = .ok (⟨"a", 1⟩ : DataPoint) ∧
    ((⟨"a", 1⟩ : DataPoint)).weight ≤ ((⟨"b", 2⟩ : DataPoint)).weight :=
  ⟨(C6_peek_min wq2 wq2_reachable (by decide)).1,
   (C6_peek_min wq2 wq2_reachable (by decide)).2.2 ⟨"b", 2⟩ (by decide)⟩

/-- C7: running any sequence of calls from a fresh queue, `size()` always
equals the number of `enqueue` calls minus the number of completed
(non-erroring) `dequeue` calls (stated additively over `Nat`), and
`isEmpty()` is true exactly when `size() = 0`.  Since the sequence is
arbitrary, this holds at every point of every call sequence. -/
theorem C7_size_accounting (ops : List Op) :
    (runCount mkNew ops).1.size + (runCount mkNew ops).2.2
      = (runCount mkNew ops).2.1 ∧
    ∀ q : HeapPQueue, (q.isEmpty = true ↔ q.size = 0) := by
  have key : ∀ (ops : List Op) (q : HeapPQueue), Inv q →
      Inv (runCount q ops).1 ∧
      (runCount q ops).1.size + (runCount q ops).2.2
        = q.size + (runCount q ops).2.1 := by
    intro ops
    induction ops with
    | nil =>
      intro q h
      exact ⟨h, by simp [runCount]⟩
    | cons op rest ih =>
      intro q h
      cases op with
      | enq d =>
        obtain ⟨q1, heq, hinv1, -, hsz, -, -, -⟩ := enqueue_ok q d h
        simp only [runCount]
        rw [enqStep_of_ok heq]
        obtain ⟨ih1, ih2⟩ := ih q1 hinv1
        exact ⟨ih1, by omega⟩
      | deq =>
        rcases Nat.eq_zero_or_pos q.size with h0 | hp
        · simp only [runCount, dequeue_empty q h0]
          obtain ⟨ih1, ih2⟩ := ih q h
          exact ⟨ih1, by omega⟩
        · obtain ⟨q1, heq, hinv1, -, hsz, -, -⟩ := dequeue_ok q h hp
          simp only [runCount, heq]
          obtain ⟨ih1, ih2⟩ := ih q1 hinv1
          exact ⟨ih1, by omega⟩
  obtain ⟨-, h2⟩ := key ops mkNew Inv_mkNew
  refine ⟨?_, fun q => isEmpty_iff q⟩
  have h0 : mkNew.size = 0 := rfl
  omega

/-- C8: every state reachable from construction by `enqueue`/`dequeue` calls
has `capacity ≥ INITIAL_CAPACITY`: the buffer never shrinks below this
floor, even when the queue is empty. -/
theorem C8_capacity_floor {q : HeapPQueue} (h : Reachable q) :
    INITIAL_CAPACITY ≤ q.capacity :=
  (reachable_inv h).cap_ge

/-- Witness for C8 at the state reached by one enqueue followed by one
dequeue (drained back to empty, the shrink step keeping capacity 100). -/
theorem C8_capacity_floor_witness : INITIAL_CAPACITY ≤ mkNew.capacity :=
  C8_capacity_floor (Reachable.deq wq1_reachable
    (show wq1.dequeue = Except.ok (⟨"b", 2⟩, mkNew) from rfl))

/-- C9: on every reachable state with `currentSize > 0`, `dequeue()` returns
exactly the element `peek()` returns on the same state (both read the root
`heap[0]`), even when several elements tie for the minimum weight. -/
theorem C9_dequeue_peek_agree (q : HeapPQueue) (hq : Reachable q)
    (hpos : 0 < q.size) :
    ∃ d q', q.dequeue = .ok (d, q') ∧ q.peek = .ok d := by
  obtain ⟨q', heq, -, -, -, -, -⟩ := dequeue_ok q (reachable_inv hq) hpos
  exact ⟨getDP q.heap 0, q', heq, peek_pos q hpos⟩

/-- Witness for C9 at the reachable two-element state `wq2`. -/
theorem C9_dequeue_peek_agree_witness :
    ∃ d q', wq2.dequeue = .ok (d, q') ∧ wq2.peek = .ok d :=
  C9_dequeue_peek_agree wq2 wq2_reachable (by decide)

theorem enqueue_factors {q : HeapPQueue} {x : DataPoint} {q' : HeapPQueue}
    (heq : q.enqueue x = .ok q') :
    q'.growFactor = q.growFactor ∧ q'.shrinkThreshold = q.shrinkThreshold := by
  unfold HeapPQueue.enqueue at heq
  by_cases hfull : q.size = q.capacity
  · rw [if_pos hfull] at heq
    unfold HeapPQueue.resize at heq
    by_cases hlt : cppIntCast ((q.capacity : Rat) * q.growFactor) < q.size
    · rw [if_pos hlt] at heq
      exact Except.noConfusion heq
    · rw [if_neg hlt] at heq
      simp only [Except.map] at heq
      have h2 := (Except.ok.inj heq).symm
      rw [h2]
      exact ⟨rfl, rfl⟩
  · rw [if_neg hfull] at heq
    simp only [Except.map] at heq
    have h2 := (Except.ok.inj heq).symm
    rw [h2]
    exact ⟨rfl, rfl⟩

theorem resize_factors {q : HeapPQueue} {n : Nat} {q' : HeapPQueue}
    (heq : q.resize n = .ok q') :
    q'.growFactor = q.growFactor ∧ q'.shrinkThreshold = q.shrinkThreshold := by
  unfold HeapPQueue.resize at heq
  by_cases h : n < q.size
  · rw [if_pos h] at heq
    exact Except.noConfusion heq
  · rw [if_neg h] at heq
    have h2 := (Except.ok.inj heq).symm
    rw [h2]
    exact ⟨rfl, rfl⟩

theorem dequeue_factors {q : HeapPQueue} {d : DataPoint} {q' : HeapPQueue}
    (heq : q.dequeue = .ok (d, q')) :
    q'.growFactor = q.growFactor ∧ q'.shrinkThreshold = q.shrinkThreshold := by
  unfold HeapPQueue.dequeue at heq
  by_cases hemp : q.isEmpty = true
  · rw [if_pos hemp] at heq
    exact Except.noConfusion heq
  · rw [if_neg hemp] at heq
    by_cases hsh : (q.popped.size : Rat) < q.shrinkThreshold * (q.capacity : Rat)
    · rw [if_pos hsh] at heq
      unfold HeapPQueue.resize at heq
      by_cases hlt : max INITIAL_CAPACITY
          (cppIntCast ((q.capacity : Rat) / q.growFactor)) < q.popped.size
      · rw [if_pos hlt] at heq
        exact Except.noConfusion heq
      · rw [if_neg hlt] at heq
        simp only [Except.map] at heq
        have h2 : q' = { q.popped with capacity := (max INITIAL_CAPACITY
            (cppIntCast ((q.capacity : Rat) / q.growFactor))) } :=
          (congrArg Prod.snd (Except.ok.inj heq)).symm
        rw [h2]
        exact ⟨rfl, rfl⟩
    · rw [if_neg hsh] at heq
      simp only [Except.map] at heq
      have h2 : q' = q.popped := (congrArg Prod.snd (Except.ok.inj heq)).symm
      rw [h2]
      exact ⟨rfl, rfl⟩

/-- C10: a freshly constructed queue has `currentSize = 0`, capacity exactly
100, grow factor exactly 2.0 and shrink threshold exactly 0.25 (= 1/4), and
no operation (`enqueue`, `dequeue` or `resize`) ever modifies the grow factor
or the shrink threshold. -/
theorem C10_constants :
    mkNew.size = 0 ∧ mkNew.capacity = 100 ∧ mkNew.growFactor = 2 ∧
    mkNew.shrinkThreshold = 1 / 4 ∧
    (∀ (q : HeapPQueue) (x : DataPoint) (q' : HeapPQueue),
      q.enqueue x = .ok q' →
      q'.growFactor = q.growFactor ∧ q'.shrinkThreshold = q.shrinkThreshold) ∧
    (∀ (q : HeapPQueue) (d : DataPoint) (q' : HeapPQueue),
      q.dequeue = .ok (d, q') →
      q'.growFactor = q.growFactor ∧ q'.shrinkThreshold = q.shrinkThreshold) ∧
    (∀ (q : HeapPQueue) (n : Nat) (q' : HeapPQueue), q.resize n = .ok q' →
      q'.growFactor = q.growFactor ∧ q'.shrinkThreshold = q.shrinkThreshold) :=
  ⟨rfl, rfl, rfl, rfl,
   fun _ _ _ heq => enqueue_factors heq,
   fun _ _ _ heq => dequeue_factors heq,
   fun _ _ _ heq => resize_factors heq⟩

/-- Witness for C10: the fresh capacity, and factor preservation across the
concrete enqueue that produces `wq1`. -/
theorem C10_constants_witness :
    mkNew.capacity = 100 ∧
    (wq1.growFactor = mkNew.growFactor ∧
      wq1.shrinkThreshold = mkNew.shrinkThreshold) :=
  ⟨C10_constants.2.1,
   C10_constants.2.2.2.2.1 mkNew ⟨"b", 2⟩ wq1 rfl⟩

end HeapPQ
